import Mathlib

/-!
Verification of the two worked constructs of the markdown tokenizer
(`src/construct/code_indented.rs` and `src/construct/partial_title.rs`)
against the natural-language specification.

The constructs are shallowly embedded as executable state machines.  Each
Rust state function becomes one arm of a fueled runner; `attempt` becomes
"run the callee to completion, restore the checkpoint (cursor position and
event list) on `Nok`", and `go` becomes unconditional chaining without a
checkpoint, exactly as in the source.  Fuel only bounds the number of state
transitions; all theorems either hold for every fuel or carry an explicit
fuel bound.

The tokenizer engine itself and the `partial_space_or_tab` /
`partial_whitespace` helpers are not part of the given sources; the
definitions for those are modelled from the specification and are marked
as such in their doc comments.
-/

/-- Side of an event mark. -/
inductive Side
  | enter
  | exit
deriving DecidableEq

/-- Token kinds used by the two constructs (from `src/token.rs` usage sites in
the two construct files). -/
inductive Token
  | CodeIndented
  | CodeFlowChunk
  | LineEnding
  | SpaceOrTab
  | DefinitionTitle
  | DefinitionTitleMarker
  | DefinitionTitleString
  | ChunkString
  | Whitespace
deriving DecidableEq

/-- An event: an enter or exit mark of a token kind at a byte/code position. -/
structure Event where
  side : Side
  token : Token
  pos : Nat
deriving DecidableEq

/-- Stack-discipline check of an event sequence: starting from the stack `stk`
of currently open token kinds, process the events; `enter` pushes, `exit` pops
when it matches the top, anything else is ill-nested (`none`). -/
def reduce : List Token → List Event → Option (List Token)
  | stk, [] => some stk
  | stk, e :: es =>
    match e.side with
    | .enter => reduce (e.token :: stk) es
    | .exit =>
      match stk with
      | [] => Option.none
      | k :: stk' => if e.token = k then reduce stk' es else Option.none

/-- Result of running a construct state machine to completion: `ok`/`nok`
carry the tokenizer state as it is at the moment of returning (no rollback is
performed by returning `nok`; rollback is the enclosing `attempt`'s job).
`out` means the fuel was exhausted. -/
inductive RunResult (σ : Type)
  | ok (t : σ)
  | nok (t : σ)
  | out
deriving DecidableEq

/-- `true` exactly on `nok`. -/
def RunResult.isNok {σ : Type} : RunResult σ → Bool
  | .nok _ => true
  | _ => false

/-- The tokenizer state as seen by `code_indented.rs`: byte input, cursor,
append-only event list, the `interrupt` and `lazy` flags, and the
`constructs.code_indented` switch of the parse configuration. -/
structure T where
  input : List Nat
  pos : Nat
  events : List Event
  interrupt : Bool
  lazy : Bool
  code_indented : Bool
deriving DecidableEq

/-- `tokenizer.current`: the byte at the cursor, `none` at end of input
(stable when the cursor is past the end). -/
def T.current (t : T) : Option Nat :=
  (t.input.drop t.pos).head?

/-- `tokenizer.consume()`: advance the cursor one code. -/
def T.consume (t : T) : T :=
  { t with pos := t.pos + 1 }

/-- `tokenizer.enter(token)`: append an enter event at the cursor. -/
def T.enter (t : T) (k : Token) : T :=
  { t with events := t.events ++ [⟨.enter, k, t.pos⟩] }

/-- `tokenizer.exit(token)`: append an exit event at the cursor. -/
def T.exit (t : T) (k : Token) : T :=
  { t with events := t.events ++ [⟨.exit, k, t.pos⟩] }

/-- `crate::constant::TAB_SIZE` (not under `src/`; the spec fixes the
threshold at 4 columns, tabs expanding to the next multiple of 4). -/
def TAB_SIZE : Nat := 4

/-- Width of one space or tab byte when the current column count is `size`:
a space is one column, a tab expands to the next multiple of `TAB_SIZE`. -/
def sotWidth (b size : Nat) : Nat :=
  if b = 9 then TAB_SIZE - size % TAB_SIZE else 1

/-- Whether consuming up to column count `s` is allowed under the bound
`max` (`none` = unbounded). -/
def sotFits (max : Option Nat) (s : Nat) : Bool :=
  match max with
  | Option.none => true
  | some m => decide (s ≤ m)

/-- Modelled from the spec: the consuming loop of `partial_space_or_tab`
(not under `src/`).  Starting with `size` columns already counted, consume
leading space (32) / tab (9) bytes while the column bound allows it;
return how many bytes were consumed and the final column count. -/
def sotLoop : List Nat → Nat → Option Nat → Nat × Nat
  | [], size, _ => (0, size)
  | b :: rest, size, max =>
    if (b = 32 || b = 9) && sotFits max (size + sotWidth b size) then
      let r := sotLoop rest (size + sotWidth b size) max
      (r.1 + 1, r.2)
    else
      (0, size)

/-- Modelled from the spec: `space_or_tab_min_max` of `partial_space_or_tab`
(not under `src/`): consume between `min` and `max` columns of space/tab
(tabs expanding to the next multiple of 4) as one `SpaceOrTab` token;
return `Ok` exactly when at least `min` columns were consumed.  On `Nok` the
consumed codes and the emitted events are left in place (the caller's
checkpoint is responsible for any rollback). -/
def spaceOrTabMinMax (t : T) (min : Nat) (max : Option Nat) : RunResult T :=
  let r := sotLoop (t.input.drop t.pos) 0 max
  if r.1 = 0 then
    (if min = 0 then .ok t else .nok t)
  else
    let t' : T := { t with
      pos := t.pos + r.1,
      events := t.events ++
        [⟨.enter, .SpaceOrTab, t.pos⟩, ⟨.exit, .SpaceOrTab, t.pos + r.1⟩] }
    if min ≤ r.2 then .ok t' else .nok t'

/-- Modelled from the spec: `space_or_tab()` = `space_or_tab_min_max` with
minimum 1 and no maximum. -/
def spaceOrTab (t : T) : RunResult T :=
  spaceOrTabMinMax t 1 Option.none

/-- The states of `code_indented.rs` (the `StateName`s of the construct). -/
inductive CIState
  | start
  | at_break
  | inside
  | after
  | further_start
  | further_end
  | further_begin
  | further_after
deriving DecidableEq

/-- Fueled runner for the `code_indented` construct: one arm per state
function of `code_indented.rs`, with `attempt` = run the callee and restore
cursor and events on `Nok`, and `go` = unconditional chaining. -/
def ciRun : Nat → CIState → T → RunResult T
  | 0, _, _ => .out
  | fuel + 1, s, t =>
    match s with
    | .start =>
      -- Do not interrupt paragraphs.
      if !t.interrupt && t.code_indented then
        let t1 := t.enter .CodeIndented
        -- `tokenizer.go(space_or_tab_min_max(TAB_SIZE, TAB_SIZE), AtBreak)`:
        -- no checkpoint, `Nok` propagates with all effects in place.
        match spaceOrTabMinMax t1 TAB_SIZE (some TAB_SIZE) with
        | .ok t2 => ciRun fuel .at_break t2
        | .nok t2 => .nok t2
        | .out => .out
      else
        .nok t
    | .at_break =>
      match t.current with
      | Option.none => ciRun fuel .after t
      | some b =>
        if b = 10 then
          -- `tokenizer.attempt(FurtherStart, ok ↦ AtBreak / nok ↦ After)`.
          match ciRun fuel .further_start t with
          | .ok t' => ciRun fuel .at_break t'
          | .nok t' => ciRun fuel .after { t' with pos := t.pos, events := t.events }
          | .out => .out
        else ciRun fuel .inside (t.enter .CodeFlowChunk)
    | .inside =>
      match t.current with
      | Option.none => ciRun fuel .at_break (t.exit .CodeFlowChunk)
      | some b =>
        if b = 10 then ciRun fuel .at_break (t.exit .CodeFlowChunk)
        else ciRun fuel .inside t.consume
    | .after =>
      -- Feel free to interrupt.
      .ok { t.exit .CodeIndented with interrupt := false }
    | .further_start =>
      -- Both source match arms are guarded by `!tokenizer.lazy`; when the
      -- flag is set, every code falls through to the final `Nok` arm.
      if t.lazy then .nok t
      else if t.current = some 10 then
        ciRun fuel .further_start (((t.enter .LineEnding).consume).exit .LineEnding)
      else
        -- `tokenizer.attempt(space_or_tab_min_max(TAB_SIZE, TAB_SIZE),
        --                    ok ↦ FurtherEnd / nok ↦ FurtherBegin)`.
        match spaceOrTabMinMax t TAB_SIZE (some TAB_SIZE) with
        | .ok t' => ciRun fuel .further_end t'
        | .nok t' => ciRun fuel .further_begin { t' with pos := t.pos, events := t.events }
        | .out => .out
    | .further_end => .ok t
    | .further_begin =>
      -- `tokenizer.attempt_opt(space_or_tab(), FurtherAfter)`.
      match spaceOrTab t with
      | .ok t' => ciRun fuel .further_after t'
      | .nok t' => ciRun fuel .further_after { t' with pos := t.pos, events := t.events }
      | .out => .out
    | .further_after =>
      if t.current = some 10 then ciRun fuel .further_start t
      else .nok t

/-- `code_indented.rs::start`. -/
def CodeIndented.start (fuel : Nat) (t : T) : RunResult T := ciRun fuel .start t

/-- `code_indented.rs::at_break`. -/
def CodeIndented.at_break (fuel : Nat) (t : T) : RunResult T := ciRun fuel .at_break t

/-- `code_indented.rs::inside`. -/
def CodeIndented.inside (fuel : Nat) (t : T) : RunResult T := ciRun fuel .inside t

/-- `code_indented.rs::after`. -/
def CodeIndented.after (fuel : Nat) (t : T) : RunResult T := ciRun fuel .after t

/-- `code_indented.rs::further_start`. -/
def CodeIndented.further_start (fuel : Nat) (t : T) : RunResult T := ciRun fuel .further_start t

/-- `code_indented.rs::further_begin`. -/
def CodeIndented.further_begin (fuel : Nat) (t : T) : RunResult T := ciRun fuel .further_begin t

/-- `code_indented.rs::further_after`. -/
def CodeIndented.further_after (fuel : Nat) (t : T) : RunResult T := ciRun fuel .further_after t

/-- Specification-side predicate, following the spec's words for the indent
threshold: the byte list begins with at least 4 columns of space/tab
indentation, a space counting one column and a tab expanding to the next
multiple of 4, starting from `cols` columns already counted. -/
def specLeadingCols (l : List Nat) (cols : Nat) : Bool :=
  if 4 ≤ cols then true
  else
    match l with
    | [] => false
    | b :: rest =>
      if b = 32 then specLeadingCols rest (cols + 1)
      else if b = 9 then specLeadingCols rest (cols + (4 - cols % 4))
      else false

/-- Specification-side predicate for a trailing run of blank lines that are
each indented less than 4 columns: every byte is space/tab or a line ending,
and the column count of each line (tabs expanding to the next multiple of 4)
stays below 4 at every line boundary, until the end of the input. -/
def specThinBlankRun : List Nat → Nat → Bool
  | [], cols => decide (cols < 4)
  | b :: rest, cols =>
    if b = 10 then decide (cols < 4) && specThinBlankRun rest 0
    else if b = 32 then specThinBlankRun rest (cols + 1)
    else if b = 9 then specThinBlankRun rest (cols + (4 - cols % 4))
    else false

/-- The scan unit of the older tokenizer API used by `partial_title.rs`:
a character, a normalized `\r\n`, or end of input. -/
inductive Code
  | none
  | crlf
  | char (c : Char)
deriving DecidableEq

/-- The tokenizer state as seen by `partial_title.rs`: code input, cursor and
append-only event list (the title construct reads no flags). -/
structure TT where
  input : List Code
  pos : Nat
  events : List Event
deriving DecidableEq

/-- The current code; past the end of input the stable answer is
`Code.none`. -/
def TT.current (t : TT) : Code :=
  ((t.input.drop t.pos).head?).getD .none

/-- `tokenizer.consume(code)`: advance the cursor one code. -/
def TT.consume (t : TT) : TT :=
  { t with pos := t.pos + 1 }

/-- `tokenizer.enter(token)` for the title construct. -/
def TT.enter (t : TT) (k : Token) : TT :=
  { t with events := t.events ++ [⟨.enter, k, t.pos⟩] }

/-- `tokenizer.exit(token)` for the title construct. -/
def TT.exit (t : TT) (k : Token) : TT :=
  { t with events := t.events ++ [⟨.exit, k, t.pos⟩] }

/-- `partial_title.rs::Kind`: the type of title. -/
inductive Kind
  | Paren
  | Double
  | Single
deriving DecidableEq

/-- `partial_title.rs::kind_to_marker`: the closing marker of a title kind. -/
def kind_to_marker : Kind → Char
  | .Double => '"'
  | .Single => '\''
  | .Paren => ')'

/-- The `match` in `partial_title.rs::start` that recognizes an opening
marker and picks the title kind. -/
def openerKind : Code → Option Kind
  | .char '"' => some .Double
  | .char '\'' => some .Single
  | .char '(' => some .Paren
  | _ => Option.none

/-- Whether a code is a line ending (`CarriageReturnLineFeed` or a bare
`'\r'`/`'\n'` character), as matched throughout `partial_title.rs`. -/
def Code.isLineEnding : Code → Bool
  | .crlf => true
  | .char c => c = '\r' || c = '\n'
  | .none => false

/-- Count of leading space/tab codes. -/
def wsCodeCount : List Code → Nat
  | .char ' ' :: rest => wsCodeCount rest + 1
  | .char '\t' :: rest => wsCodeCount rest + 1
  | _ => 0

/-- Modelled from the spec: `partial_whitespace::start` (not under `src/`),
as used by the title construct to consume optional leading whitespace after a
line ending: consume one or more space/tab codes as one `Whitespace` token,
`Nok` (leaving the state untouched) when there is none. -/
def whitespace (t : TT) : RunResult TT :=
  let n := wsCodeCount (t.input.drop t.pos)
  if n = 0 then .nok t
  else .ok { t with
    pos := t.pos + n,
    events := t.events ++
      [⟨.enter, .Whitespace, t.pos⟩, ⟨.exit, .Whitespace, t.pos + n⟩] }

/-- The states of `partial_title.rs`; every state after `start` carries the
title kind captured at the opening marker. -/
inductive TiState
  | start
  | begin (k : Kind)
  | at_break (k : Kind)
  | line_start (k : Kind)
  | line_begin (k : Kind)
  | title (k : Kind)
  | escape (k : Kind)
deriving DecidableEq

/-- Fueled runner for the title construct: one arm per state function of
`partial_title.rs`. -/
def tiRun : Nat → TiState → TT → RunResult TT
  | 0, _, _ => .out
  | fuel + 1, s, t =>
    match s with
    | .start =>
      match openerKind t.current with
      | some k =>
        tiRun fuel (.begin k)
          ((((t.enter .DefinitionTitle).enter .DefinitionTitleMarker).consume).exit
            .DefinitionTitleMarker)
      | Option.none => .nok t
    | .begin k =>
      match t.current with
      | .char c =>
        if c = kind_to_marker k then
          .ok ((((t.enter .DefinitionTitleMarker).consume).exit
            .DefinitionTitleMarker).exit .DefinitionTitle)
        else
          tiRun fuel (.at_break k) (t.enter .DefinitionTitleString)
      | _ => tiRun fuel (.at_break k) (t.enter .DefinitionTitleString)
    | .at_break k =>
      match t.current with
      | .char c =>
        if c = kind_to_marker k then
          tiRun fuel (.begin k) (t.exit .DefinitionTitleString)
        else if c = '\r' ∨ c = '\n' then
          tiRun fuel (.line_start k) (((t.enter .LineEnding).consume).exit .LineEnding)
        else
          tiRun fuel (.title k) (t.enter .ChunkString)
      | .none => .nok t
      | .crlf =>
        tiRun fuel (.line_start k) (((t.enter .LineEnding).consume).exit .LineEnding)
    | .line_start k =>
      -- `tokenizer.attempt(whitespace, |_ok| line_begin)`: continue with
      -- `line_begin` whether or not whitespace was found.
      match whitespace t with
      | .ok t' => tiRun fuel (.line_begin k) t'
      | .nok t' => tiRun fuel (.line_begin k) { t' with pos := t.pos, events := t.events }
      | .out => .out
    | .line_begin k =>
      match t.current with
      | .crlf => .nok t
      | .char c => if c = '\r' ∨ c = '\n' then .nok t else tiRun fuel (.at_break k) t
      | .none => tiRun fuel (.at_break k) t
    | .title k =>
      match t.current with
      | .char c =>
        if c = kind_to_marker k then
          tiRun fuel (.at_break k) (t.exit .ChunkString)
        else if c = '\r' ∨ c = '\n' then
          tiRun fuel (.at_break k) (t.exit .ChunkString)
        else if c = '\\' then
          tiRun fuel (.escape k) t.consume
        else
          tiRun fuel (.title k) t.consume
      | _ => tiRun fuel (.at_break k) (t.exit .ChunkString)
    | .escape k =>
      if t.current = .char (kind_to_marker k) then
        tiRun fuel (.title k) t.consume
      else
        tiRun fuel (.title k) t

/-- `partial_title.rs::start`. -/
def Title.start (fuel : Nat) (t : TT) : RunResult TT := tiRun fuel .start t

/-- `partial_title.rs::begin`. -/
def Title.begin (fuel : Nat) (k : Kind) (t : TT) : RunResult TT := tiRun fuel (.begin k) t

/-- `partial_title.rs::at_break`. -/
def Title.at_break (fuel : Nat) (k : Kind) (t : TT) : RunResult TT := tiRun fuel (.at_break k) t

/-- `partial_title.rs::line_start`. -/
def Title.line_start (fuel : Nat) (k : Kind) (t : TT) : RunResult TT := tiRun fuel (.line_start k) t

/-- `partial_title.rs::line_begin`. -/
def Title.line_begin (fuel : Nat) (k : Kind) (t : TT) : RunResult TT := tiRun fuel (.line_begin k) t

/-- `partial_title.rs::title`. -/
def Title.title (fuel : Nat) (k : Kind) (t : TT) : RunResult TT := tiRun fuel (.title k) t

/-- `partial_title.rs::escape`. -/
def Title.escape (fuel : Nat) (k : Kind) (t : TT) : RunResult TT := tiRun fuel (.escape k) t

/-- The state after the line ending consumed by `at_break` (enter
`LineEnding`, consume, exit `LineEnding`). -/
def consumeLineEnding (t : TT) : TT :=
  ((t.enter .LineEnding).consume).exit .LineEnding

/-- The state after the checkpointed whitespace attempt of `line_start`:
the whitespace state on success, the restored (unchanged) state otherwise. -/
def afterWsState (t : TT) : TT :=
  match whitespace t with
  | .ok t' => t'
  | _ => t

/-- The tokenizer state carried by an `ok` or `nok` result. -/
def RunResult.state? {σ : Type} : RunResult σ → Option σ
  | .ok t => some t
  | .nok t => some t
  | .out => Option.none

theorem T.ext' {a b : T} (h1 : a.input = b.input) (h2 : a.pos = b.pos)
    (h3 : a.events = b.events) (h4 : a.interrupt = b.interrupt)
    (h5 : a.lazy = b.lazy) (h6 : a.code_indented = b.code_indented) : a = b := by
  cases a; cases b; simp_all

theorem reduce_append (es₁ es₂ : List Event) (stk : List Token) :
    reduce stk (es₁ ++ es₂) = (reduce stk es₁).bind (fun s => reduce s es₂) := by
  induction es₁ generalizing stk with
  | nil => simp [reduce]
  | cons e es ih =>
    cases hs : e.side <;> simp [reduce, hs]
    · exact ih _
    · cases stk with
      | nil => simp [reduce]
      | cons k stk' =>
        by_cases hk : e.token = k <;> simp [hk, ih]

theorem reduce_frame (es : List Event) (stk stk' rest : List Token)
    (h : reduce stk es = some stk') :
    reduce (stk ++ rest) es = some (stk' ++ rest) := by
  induction es generalizing stk stk' with
  | nil => simp_all [reduce]
  | cons e es ih =>
    cases hs : e.side
    · simp only [reduce, hs] at h ⊢
      exact ih (e.token :: stk) stk' h
    · simp only [reduce, hs] at h ⊢
      cases stk with
      | nil => simp at h
      | cons k stk₁ =>
        by_cases hk : e.token = k
        · simp only [hk, if_true] at h ⊢
          simp only [List.cons_append]
          simp [hk]
          exact ih stk₁ stk' h
        · simp [hk] at h

/-- A pair of matching enter/exit events is neutral for `reduce`. -/
theorem reduce_pair (k : Token) (p q : Nat) (stk : List Token) :
    reduce stk [⟨.enter, k, p⟩, ⟨.exit, k, q⟩] = some stk := by
  simp [reduce]

theorem sotWidth_pos (b size : Nat) : 1 ≤ sotWidth b size := by
  unfold sotWidth TAB_SIZE
  split
  · omega
  · omega

theorem sotLoop_consumed_zero (l : List Nat) (size : Nat) (max : Option Nat)
    (h : (sotLoop l size max).1 = 0) : (sotLoop l size max).2 = size := by
  cases l with
  | nil => simp [sotLoop]
  | cons b rest =>
    simp only [sotLoop] at h ⊢
    split_ifs at h ⊢ with hc
    · simp at h
    · rfl

theorem sotLoop_size_le (l : List Nat) (size : Nat) (max : Option Nat) :
    (sotLoop l size max).1 + size ≤ (sotLoop l size max).2 := by
  induction l generalizing size with
  | nil => simp [sotLoop]
  | cons b rest ih =>
    simp only [sotLoop]
    split
    · have := ih (size + sotWidth b size)
      have := sotWidth_pos b size
      omega
    · omega

/-- The success of the 4-column `space_or_tab_min_max` coincides with the
spec-side leading-columns predicate. -/
theorem sotLoop44_spec (l : List Nat) (size : Nat) :
    4 ≤ (sotLoop l size (some 4)).2 ↔ specLeadingCols l size = true := by
  induction l generalizing size with
  | nil =>
    simp only [sotLoop, specLeadingCols]
    split
    · simpa
    · simp; omega
  | cons b rest ih =>
    by_cases h4 : 4 ≤ size
    · have hw := sotWidth_pos b size
      simp only [sotLoop, specLeadingCols, sotFits, h4, if_true]
      have : ¬ (size + sotWidth b size ≤ 4) := by omega
      simp [this, h4]
    · simp only [sotLoop, specLeadingCols, sotFits, h4, if_false]
      by_cases hb32 : b = 32
      · subst hb32
        have : sotWidth 32 size = 1 := by simp [sotWidth]
        have hfit : size + 1 ≤ 4 := by omega
        simp [this, hfit, ih]
      · by_cases hb9 : b = 9
        · subst hb9
          have hm : size % 4 = size := Nat.mod_eq_of_lt (by omega)
          have hw : sotWidth 9 size = 4 - size % 4 := by simp [sotWidth, TAB_SIZE]
          have h44 : size + (4 - size % 4) = 4 := by omega
          simp only [hw, h44, sotFits]
          norm_num
          exact ih 4
        · simp [hb32, hb9]
          omega

/-- Field preservation of the modelled `space_or_tab_min_max`: it changes
only the cursor and the events, appending a balanced (possibly empty) pair
of `SpaceOrTab` marks. -/
theorem sot_state {t : T} {min : Nat} {max : Option Nat} {u : T}
    (h : (spaceOrTabMinMax t min max).state? = some u) :
    u.input = t.input ∧ u.interrupt = t.interrupt ∧ u.lazy = t.lazy ∧
    u.code_indented = t.code_indented ∧
    ∃ es, u.events = t.events ++ es ∧ ∀ stk, reduce stk es = some stk := by
  unfold spaceOrTabMinMax at h
  simp only at h
  split at h
  · split at h <;>
    · simp [RunResult.state?] at h
      subst h
      exact ⟨rfl, rfl, rfl, rfl, [], by simp, fun stk => by simp [reduce]⟩
  · split at h <;>
    · simp [RunResult.state?] at h
      subst h
      refine ⟨rfl, rfl, rfl, rfl, _, rfl, fun stk => reduce_pair _ _ _ _⟩

/-- Count of leading space/tab bytes. -/
def bwsLen : List Nat → Nat
  | b :: rest => if b = 32 || b = 9 then bwsLen rest + 1 else 0
  | [] => 0

/-- With no column bound, the space-or-tab loop consumes exactly the leading
space/tab run. -/
theorem sotLoop_none_consumed (l : List Nat) (size : Nat) :
    (sotLoop l size Option.none).1 = bwsLen l := by
  induction l generalizing size with
  | nil => simp [sotLoop, bwsLen]
  | cons b rest ih =>
    simp only [sotLoop, bwsLen, sotFits]
    by_cases hb : b = 32 || b = 9 <;> simp [hb, ih]

theorem thin_of_ge4 (l : List Nat) (cols : Nat) (h : 4 ≤ cols) :
    specThinBlankRun l cols = false := by
  induction l generalizing cols with
  | nil => simp [specThinBlankRun]; omega
  | cons b rest ih =>
    simp only [specThinBlankRun]
    by_cases hb10 : b = 10
    · simp [hb10]; omega
    · by_cases hb32 : b = 32
      · simp [hb10, hb32, ih (cols + 1) (by omega)]
      · by_cases hb9 : b = 9
        · simp [hb10, hb32, hb9, ih (cols + (4 - cols % 4)) (by omega)]
        · simp [hb10, hb32, hb9]

/-- A thin blank run never reaches 4 leading columns. -/
theorem thin_leading (l : List Nat) (cols : Nat)
    (h : specThinBlankRun l cols = true) : specLeadingCols l cols = false := by
  induction l generalizing cols with
  | nil =>
    simp only [specThinBlankRun, decide_eq_true_eq] at h
    simp only [specLeadingCols]
    rw [if_neg (by omega)]
  | cons b rest ih =>
    simp only [specThinBlankRun] at h
    by_cases h4 : 4 ≤ cols
    · by_cases hb10 : b = 10
      · simp [hb10] at h; omega
      · by_cases hb32 : b = 32
        · rw [hb32] at h ⊢
          simp only [if_true, if_false] at h
          simp at h
          have := thin_of_ge4 rest (cols + 1) (by omega)
          rw [this] at h
          simp at h
        · by_cases hb9 : b = 9
          · rw [hb9] at h
            simp only at h
            norm_num at h
            have := thin_of_ge4 rest (cols + (4 - cols % 4)) (by omega)
            rw [this] at h
            simp at h
          · simp [hb10, hb32, hb9] at h
    · simp only [specLeadingCols, h4, if_false]
      by_cases hb10 : b = 10
      · subst hb10; norm_num
      · by_cases hb32 : b = 32
        · subst hb32
          simp only [if_true] at h ⊢
          norm_num at h ⊢
          exact ih (cols + 1) h
        · by_cases hb9 : b = 9
          · subst hb9
            norm_num at h ⊢
            exact ih (cols + (4 - cols % 4)) h
          · simp [hb10, hb32, hb9]

/-- A thin blank run, after its leading whitespace, is either exhausted or
continues with a line ending followed by another thin blank run. -/
theorem thin_decomp (l : List Nat) (cols : Nat)
    (h : specThinBlankRun l cols = true) :
    l.drop (bwsLen l) = [] ∨
    (∃ r, l.drop (bwsLen l) = 10 :: r ∧ specThinBlankRun r 0 = true) := by
  induction l generalizing cols with
  | nil => simp [bwsLen]
  | cons b rest ih =>
    simp only [specThinBlankRun] at h
    by_cases hb10 : b = 10
    · subst hb10
      simp only [if_true] at h
      norm_num at h
      right
      exact ⟨rest, by simp [bwsLen], h.2⟩
    · by_cases hb32 : b = 32
      · subst hb32
        simp only at h
        norm_num at h
        have : bwsLen (32 :: rest) = bwsLen rest + 1 := by simp [bwsLen]
        rw [this]
        simpa using ih (cols + 1) h
      · by_cases hb9 : b = 9
        · subst hb9
          norm_num at h
          have : bwsLen (9 :: rest) = bwsLen rest + 1 := by simp [bwsLen]
          rw [this]
          simpa using ih (cols + (4 - cols % 4)) h
        · simp [hb10, hb32, hb9] at h

@[simp] theorem RunResult.state?_ok {σ : Type} (t : σ) :
    (RunResult.ok t).state? = some t := rfl

@[simp] theorem RunResult.state?_nok {σ : Type} (t : σ) :
    (RunResult.nok t).state? = some t := rfl

@[simp] theorem RunResult.state?_out {σ : Type} :
    (RunResult.out : RunResult σ).state? = Option.none := rfl

@[simp] theorem T.enter_input (t : T) (k : Token) : (t.enter k).input = t.input := rfl
@[simp] theorem T.enter_pos (t : T) (k : Token) : (t.enter k).pos = t.pos := rfl
@[simp] theorem T.enter_interrupt (t : T) (k : Token) : (t.enter k).interrupt = t.interrupt := rfl
@[simp] theorem T.enter_lazy (t : T) (k : Token) : (t.enter k).lazy = t.lazy := rfl
@[simp] theorem T.enter_ci (t : T) (k : Token) : (t.enter k).code_indented = t.code_indented := rfl
@[simp] theorem T.enter_events (t : T) (k : Token) :
    (t.enter k).events = t.events ++ [⟨.enter, k, t.pos⟩] := rfl
@[simp] theorem T.exit_input (t : T) (k : Token) : (t.exit k).input = t.input := rfl
@[simp] theorem T.exit_pos (t : T) (k : Token) : (t.exit k).pos = t.pos := rfl
@[simp] theorem T.exit_interrupt (t : T) (k : Token) : (t.exit k).interrupt = t.interrupt := rfl
@[simp] theorem T.exit_lazy (t : T) (k : Token) : (t.exit k).lazy = t.lazy := rfl
@[simp] theorem T.exit_ci (t : T) (k : Token) : (t.exit k).code_indented = t.code_indented := rfl
@[simp] theorem T.exit_events (t : T) (k : Token) :
    (t.exit k).events = t.events ++ [⟨.exit, k, t.pos⟩] := rfl
@[simp] theorem T.consume_input (t : T) : t.consume.input = t.input := rfl
@[simp] theorem T.consume_pos (t : T) : t.consume.pos = t.pos + 1 := rfl
@[simp] theorem T.consume_interrupt (t : T) : t.consume.interrupt = t.interrupt := rfl
@[simp] theorem T.consume_lazy (t : T) : t.consume.lazy = t.lazy := rfl
@[simp] theorem T.consume_ci (t : T) : t.consume.code_indented = t.code_indented := rfl
@[simp] theorem T.consume_events (t : T) : t.consume.events = t.events := rfl

/-- Every state of the `code_indented` machine leaves the input, the `lazy`
flag and the construct switch untouched, whatever the outcome. -/
theorem ci_fields : ∀ fuel s t u, (ciRun fuel s t).state? = some u →
    u.input = t.input ∧ u.lazy = t.lazy ∧ u.code_indented = t.code_indented := by
  intro fuel
  induction fuel with
  | zero => intro s t u h; simp [ciRun] at h
  | succ f ih =>
    intro s t u h
    cases s with
    | start =>
      simp only [ciRun] at h
      split_ifs at h with hflag
      · cases hsot : spaceOrTabMinMax (t.enter .CodeIndented) TAB_SIZE (some TAB_SIZE) with
        | ok t2 =>
          rw [hsot] at h
          obtain ⟨hi, -, hl, hc, -⟩ := sot_state (by rw [hsot]; rfl)
          obtain ⟨hi2, hl2, hc2⟩ := ih _ _ _ h
          exact ⟨hi2.trans hi, hl2.trans hl, hc2.trans hc⟩
        | nok t2 =>
          rw [hsot] at h
          simp at h
          subst h
          obtain ⟨hi, -, hl, hc, -⟩ := sot_state (by rw [hsot]; rfl)
          exact ⟨hi, hl, hc⟩
        | out => rw [hsot] at h; simp at h
      · simp at h; subst h; exact ⟨rfl, rfl, rfl⟩
    | at_break =>
      rcases hcur : t.current with _ | b
      · simp only [ciRun, hcur] at h
        exact ih _ _ _ h
      · simp only [ciRun, hcur] at h
        split_ifs at h with hb
        · cases hfs : ciRun f CIState.further_start t with
          | ok t' =>
            rw [hfs] at h
            obtain ⟨hi, hl, hc⟩ := ih _ _ _ (by rw [hfs]; rfl)
            obtain ⟨hi2, hl2, hc2⟩ := ih _ _ _ h
            exact ⟨hi2.trans hi, hl2.trans hl, hc2.trans hc⟩
          | nok t' =>
            rw [hfs] at h
            obtain ⟨hi, hl, hc⟩ := ih _ _ _ (by rw [hfs]; rfl)
            obtain ⟨hi2, hl2, hc2⟩ := ih _ _ _ h
            exact ⟨hi2.trans hi, hl2.trans hl, hc2.trans hc⟩
          | out => rw [hfs] at h; simp at h
        · obtain ⟨h1, h2, h3⟩ := ih _ _ _ h
          exact ⟨h1, h2, h3⟩
    | inside =>
      rcases hcur : t.current with _ | b
      · simp only [ciRun, hcur] at h
        obtain ⟨h1, h2, h3⟩ := ih _ _ _ h
        exact ⟨h1, h2, h3⟩
      · simp only [ciRun, hcur] at h
        split_ifs at h with hb
        · obtain ⟨h1, h2, h3⟩ := ih _ _ _ h
          exact ⟨h1, h2, h3⟩
        · obtain ⟨h1, h2, h3⟩ := ih _ _ _ h
          exact ⟨h1, h2, h3⟩
    | after =>
      simp only [ciRun] at h
      simp at h
      subst h
      exact ⟨rfl, rfl, rfl⟩
    | further_start =>
      simp only [ciRun] at h
      split_ifs at h with hlazy hcur
      · simp at h; subst h; exact ⟨rfl, rfl, rfl⟩
      · obtain ⟨h1, h2, h3⟩ := ih _ _ _ h
        exact ⟨h1, h2, h3⟩
      · cases hsot : spaceOrTabMinMax t TAB_SIZE (some TAB_SIZE) with
        | ok t' =>
          rw [hsot] at h
          obtain ⟨hi, -, hl, hc, -⟩ := sot_state (by rw [hsot]; rfl)
          obtain ⟨hi2, hl2, hc2⟩ := ih _ _ _ h
          exact ⟨hi2.trans hi, hl2.trans hl, hc2.trans hc⟩
        | nok t' =>
          rw [hsot] at h
          obtain ⟨hi, -, hl, hc, -⟩ := sot_state (by rw [hsot]; rfl)
          obtain ⟨hi2, hl2, hc2⟩ := ih _ _ _ h
          exact ⟨hi2.trans hi, hl2.trans hl, hc2.trans hc⟩
        | out => rw [hsot] at h; simp at h
    | further_end =>
      simp only [ciRun] at h
      simp at h
      subst h
      exact ⟨rfl, rfl, rfl⟩
    | further_begin =>
      simp only [ciRun] at h
      cases hsot : spaceOrTab t with
      | ok t' =>
        rw [hsot] at h
        have hs : (spaceOrTabMinMax t 1 Option.none).state? = some t' := by
          rw [show spaceOrTabMinMax t 1 Option.none = RunResult.ok t' from hsot]; rfl
        obtain ⟨hi, -, hl, hc, -⟩ := sot_state hs
        obtain ⟨hi2, hl2, hc2⟩ := ih _ _ _ h
        exact ⟨hi2.trans hi, hl2.trans hl, hc2.trans hc⟩
      | nok t' =>
        rw [hsot] at h
        have hs : (spaceOrTabMinMax t 1 Option.none).state? = some t' := by
          rw [show spaceOrTabMinMax t 1 Option.none = RunResult.nok t' from hsot]; rfl
        obtain ⟨hi, -, hl, hc, -⟩ := sot_state hs
        obtain ⟨hi2, hl2, hc2⟩ := ih _ _ _ h
        exact ⟨hi2.trans hi, hl2.trans hl, hc2.trans hc⟩
      | out => rw [hsot] at h; simp at h
    | further_after =>
      simp only [ciRun] at h
      split_ifs at h with hcur
      · obtain ⟨h1, h2, h3⟩ := ih _ _ _ h
        exact ⟨h1, h2, h3⟩
      · simp at h; subst h; exact ⟨rfl, rfl, rfl⟩

/-- The `further_*` states never touch the `interrupt` flag (only `after`
does, and it is not reachable from them). -/
theorem ci_further_interrupt : ∀ fuel s t u,
    (s = CIState.further_start ∨ s = CIState.further_end ∨
     s = CIState.further_begin ∨ s = CIState.further_after) →
    (ciRun fuel s t).state? = some u → u.interrupt = t.interrupt := by
  intro fuel
  induction fuel with
  | zero => intro s t u _ h; simp [ciRun] at h
  | succ f ih =>
    intro s t u hs h
    rcases hs with hs | hs | hs | hs <;> subst hs
    · simp only [ciRun] at h
      split_ifs at h with hlazy hcur
      · simp at h; subst h; rfl
      · have := ih _ _ _ (Or.inl rfl) h
        exact this
      · cases hsot : spaceOrTabMinMax t TAB_SIZE (some TAB_SIZE) with
        | ok t' =>
          rw [hsot] at h
          obtain ⟨-, hint, -, -, -⟩ := sot_state (by rw [hsot]; rfl)
          exact (ih _ _ _ (Or.inr (Or.inl rfl)) h).trans hint
        | nok t' =>
          rw [hsot] at h
          obtain ⟨-, hint, -, -, -⟩ := sot_state (by rw [hsot]; rfl)
          exact (ih _ _ _ (Or.inr (Or.inr (Or.inl rfl))) h).trans hint
        | out => rw [hsot] at h; simp at h
    · simp only [ciRun] at h
      simp at h; subst h; rfl
    · simp only [ciRun] at h
      cases hsot : spaceOrTab t with
      | ok t' =>
        rw [hsot] at h
        have hst : (spaceOrTabMinMax t 1 Option.none).state? = some t' := by
          rw [show spaceOrTabMinMax t 1 Option.none = RunResult.ok t' from hsot]; rfl
        obtain ⟨-, hint, -, -, -⟩ := sot_state hst
        exact (ih _ _ _ (Or.inr (Or.inr (Or.inr rfl))) h).trans hint
      | nok t' =>
        rw [hsot] at h
        have hst : (spaceOrTabMinMax t 1 Option.none).state? = some t' := by
          rw [show spaceOrTabMinMax t 1 Option.none = RunResult.nok t' from hsot]; rfl
        obtain ⟨-, hint, -, -, -⟩ := sot_state hst
        exact (ih _ _ _ (Or.inr (Or.inr (Or.inr rfl))) h).trans hint
      | out => rw [hsot] at h; simp at h
    · simp only [ciRun] at h
      split_ifs at h with hcur
      · exact ih _ _ _ (Or.inl rfl) h
      · simp at h; subst h; rfl

/-- The states downstream of a successful indent check can fail only by
running out of fuel, never with `Nok`. -/
theorem ci_not_nok : ∀ fuel t u,
    ciRun fuel CIState.at_break t ≠ .nok u ∧
    ciRun fuel CIState.inside t ≠ .nok u ∧
    ciRun fuel CIState.after t ≠ .nok u := by
  intro fuel
  induction fuel with
  | zero =>
    intro t u
    refine ⟨?_, ?_, ?_⟩ <;> simp [ciRun]
  | succ f ih =>
    intro t u
    refine ⟨?_, ?_, ?_⟩
    · intro h
      rcases hcur : t.current with _ | b
      · simp only [ciRun, hcur] at h
        exact (ih t u).2.2 h
      · simp only [ciRun, hcur] at h
        split_ifs at h with hb
        · cases hfs : ciRun f CIState.further_start t with
          | ok t' => rw [hfs] at h; exact (ih t' u).1 h
          | nok t' => rw [hfs] at h; exact (ih _ u).2.2 h
          | out => rw [hfs] at h; simp at h
        · exact (ih _ u).2.1 h
    · intro h
      rcases hcur : t.current with _ | b
      · simp only [ciRun, hcur] at h
        exact (ih _ u).1 h
      · simp only [ciRun, hcur] at h
        split_ifs at h with hb
        · exact (ih _ u).1 h
        · exact (ih _ u).2.1 h
    · intro h
      simp only [ciRun] at h
      simp at h

/-- Every `Ok` of `at_break`/`inside`/`after` goes through `after`, which
clears the `interrupt` flag. -/
theorem ci_ok_interrupt : ∀ fuel t u,
    (ciRun fuel CIState.at_break t = .ok u → u.interrupt = false) ∧
    (ciRun fuel CIState.inside t = .ok u → u.interrupt = false) ∧
    (ciRun fuel CIState.after t = .ok u → u.interrupt = false) := by
  intro fuel
  induction fuel with
  | zero =>
    intro t u
    refine ⟨?_, ?_, ?_⟩ <;> · intro h; simp [ciRun] at h
  | succ f ih =>
    intro t u
    refine ⟨?_, ?_, ?_⟩
    · intro h
      rcases hcur : t.current with _ | b
      · simp only [ciRun, hcur] at h
        exact (ih t u).2.2 h
      · simp only [ciRun, hcur] at h
        split_ifs at h with hb
        · cases hfs : ciRun f CIState.further_start t with
          | ok t' => rw [hfs] at h; exact (ih t' u).1 h
          | nok t' => rw [hfs] at h; exact (ih _ u).2.2 h
          | out => rw [hfs] at h; simp at h
        · exact (ih _ u).2.1 h
    · intro h
      rcases hcur : t.current with _ | b
      · simp only [ciRun, hcur] at h
        exact (ih _ u).1 h
      · simp only [ciRun, hcur] at h
        split_ifs at h with hb
        · exact (ih _ u).1 h
        · exact (ih _ u).2.1 h
    · intro h
      simp only [ciRun] at h
      simp at h
      rw [← h]

/-- The token kinds open at entry to each `code_indented` state. -/
def ciOpen : CIState → List Token
  | .start => []
  | .at_break => [.CodeIndented]
  | .inside => [.CodeFlowChunk, .CodeIndented]
  | .after => [.CodeIndented]
  | .further_start => []
  | .further_end => []
  | .further_begin => []
  | .further_after => []

theorem balance_comp {e₁ e₂ : List Event} {stk mid : List Token}
    (h1 : reduce stk e₁ = some mid) (h2 : reduce mid e₂ = some []) :
    reduce stk (e₁ ++ e₂) = some [] := by
  rw [reduce_append, h1]; exact h2

/-- A neutral event segment (one that restores any stack) followed by a
closing segment closes the stack. -/
theorem balance_neutral {e₁ e₂ : List Event} {stk : List Token}
    (h1 : ∀ s, reduce s e₁ = some s) (h2 : reduce stk e₂ = some []) :
    reduce stk (e₁ ++ e₂) = some [] :=
  balance_comp (h1 stk) h2

/-- Balance invariant of the `code_indented` machine: a state entered with
`ciOpen s` token kinds open appends, on success, an event segment that
closes exactly those kinds in stack order. -/
theorem ci_balance : ∀ fuel s t u, ciRun fuel s t = .ok u →
    ∃ es, u.events = t.events ++ es ∧ reduce (ciOpen s) es = some [] := by
  intro fuel
  induction fuel with
  | zero => intro s t u h; simp [ciRun] at h
  | succ f ih =>
    intro s t u h
    cases s with
    | start =>
      simp only [ciRun] at h
      split_ifs at h with hflag
      · cases hsot : spaceOrTabMinMax (t.enter .CodeIndented) TAB_SIZE (some TAB_SIZE) with
        | ok t2 =>
          rw [hsot] at h
          obtain ⟨-, -, -, -, es₁, he₁, hne₁⟩ := sot_state (by rw [hsot]; rfl)
          obtain ⟨es₂, he₂, hb₂⟩ := ih _ _ _ h
          refine ⟨⟨.enter, .CodeIndented, t.pos⟩ :: (es₁ ++ es₂), ?_, ?_⟩
          · rw [he₂, he₁]
            simp [T.enter]
          · show reduce [] (⟨.enter, .CodeIndented, t.pos⟩ :: (es₁ ++ es₂)) = some []
            have : reduce [] [(⟨.enter, .CodeIndented, t.pos⟩ : Event)] =
                some [Token.CodeIndented] := by simp [reduce]
            calc reduce [] (⟨.enter, .CodeIndented, t.pos⟩ :: (es₁ ++ es₂))
                = reduce [Token.CodeIndented] (es₁ ++ es₂) := by simp [reduce]
              _ = some [] := balance_comp (hne₁ [Token.CodeIndented]) hb₂
        | nok t2 => rw [hsot] at h; simp at h
        | out => rw [hsot] at h; simp at h
    | at_break =>
      rcases hcur : t.current with _ | b
      · simp only [ciRun, hcur] at h
        obtain ⟨es₂, he₂, hb₂⟩ := ih _ _ _ h
        exact ⟨es₂, he₂, hb₂⟩
      · simp only [ciRun, hcur] at h
        split_ifs at h with hb
        · cases hfs : ciRun f CIState.further_start t with
          | ok t' =>
            rw [hfs] at h
            obtain ⟨es₁, he₁, hb₁⟩ := ih _ _ _ hfs
            obtain ⟨es₂, he₂, hb₂⟩ := ih _ _ _ h
            refine ⟨es₁ ++ es₂, ?_, ?_⟩
            · rw [he₂, he₁, List.append_assoc]
            · have hfr := reduce_frame es₁ [] [] [Token.CodeIndented] hb₁
              simp at hfr
              exact balance_comp hfr hb₂
          | nok t' =>
            rw [hfs] at h
            obtain ⟨es₂, he₂, hb₂⟩ := ih _ _ _ h
            exact ⟨es₂, he₂, hb₂⟩
          | out => rw [hfs] at h; simp at h
        · obtain ⟨es₂, he₂, hb₂⟩ := ih _ _ _ h
          refine ⟨⟨.enter, .CodeFlowChunk, t.pos⟩ :: es₂, ?_, ?_⟩
          · rw [he₂]
            simp [T.enter]
          · show reduce [Token.CodeIndented]
                (⟨.enter, .CodeFlowChunk, t.pos⟩ :: es₂) = some []
            calc reduce [Token.CodeIndented] (⟨.enter, .CodeFlowChunk, t.pos⟩ :: es₂)
                = reduce [Token.CodeFlowChunk, Token.CodeIndented] es₂ := by simp [reduce]
              _ = some [] := hb₂
    | inside =>
      rcases hcur : t.current with _ | b
      · simp only [ciRun, hcur] at h
        obtain ⟨es₂, he₂, hb₂⟩ := ih _ _ _ h
        refine ⟨⟨.exit, .CodeFlowChunk, t.pos⟩ :: es₂, ?_, ?_⟩
        · rw [he₂]; simp [T.exit]
        · show reduce [Token.CodeFlowChunk, Token.CodeIndented]
              (⟨.exit, .CodeFlowChunk, t.pos⟩ :: es₂) = some []
          calc reduce [Token.CodeFlowChunk, Token.CodeIndented]
                (⟨.exit, .CodeFlowChunk, t.pos⟩ :: es₂)
              = reduce [Token.CodeIndented] es₂ := by simp [reduce]
            _ = some [] := hb₂
      · simp only [ciRun, hcur] at h
        split_ifs at h with hb
        · obtain ⟨es₂, he₂, hb₂⟩ := ih _ _ _ h
          refine ⟨⟨.exit, .CodeFlowChunk, t.pos⟩ :: es₂, ?_, ?_⟩
          · rw [he₂]; simp [T.exit]
          · show reduce [Token.CodeFlowChunk, Token.CodeIndented]
                (⟨.exit, .CodeFlowChunk, t.pos⟩ :: es₂) = some []
            calc reduce [Token.CodeFlowChunk, Token.CodeIndented]
                  (⟨.exit, .CodeFlowChunk, t.pos⟩ :: es₂)
                = reduce [Token.CodeIndented] es₂ := by simp [reduce]
              _ = some [] := hb₂
        · obtain ⟨es₂, he₂, hb₂⟩ := ih _ _ _ h
          exact ⟨es₂, he₂, hb₂⟩
    | after =>
      simp only [ciRun] at h
      simp at h
      refine ⟨[⟨.exit, .CodeIndented, t.pos⟩], ?_, ?_⟩
      · rw [← h]
      · simp [ciOpen, reduce]
    | further_start =>
      simp only [ciRun] at h
      split_ifs at h with hlazy hcur
      · obtain ⟨es₂, he₂, hb₂⟩ := ih _ _ _ h
        refine ⟨⟨.enter, .LineEnding, t.pos⟩ :: ⟨.exit, .LineEnding, t.pos + 1⟩ :: es₂, ?_, ?_⟩
        · rw [he₂]
          simp [T.enter, T.exit, T.consume]
        · show reduce []
              (⟨.enter, .LineEnding, t.pos⟩ :: ⟨.exit, .LineEnding, t.pos + 1⟩ :: es₂) = some []
          calc reduce []
                (⟨.enter, .LineEnding, t.pos⟩ :: ⟨.exit, .LineEnding, t.pos + 1⟩ :: es₂)
              = reduce [] es₂ := by simp [reduce]
            _ = some [] := hb₂
      · cases hsot : spaceOrTabMinMax t TAB_SIZE (some TAB_SIZE) with
        | ok t' =>
          rw [hsot] at h
          obtain ⟨-, -, -, -, es₁, he₁, hne₁⟩ := sot_state (by rw [hsot]; rfl)
          obtain ⟨es₂, he₂, hb₂⟩ := ih _ _ _ h
          refine ⟨es₁ ++ es₂, ?_, balance_neutral hne₁ hb₂⟩
          rw [he₂, he₁, List.append_assoc]
        | nok t' =>
          rw [hsot] at h
          obtain ⟨es₂, he₂, hb₂⟩ := ih _ _ _ h
          exact ⟨es₂, he₂, hb₂⟩
        | out => rw [hsot] at h; simp at h
    | further_end =>
      simp only [ciRun] at h
      simp at h
      subst h
      exact ⟨[], by simp, by simp [ciOpen, reduce]⟩
    | further_begin =>
      simp only [ciRun] at h
      cases hsot : spaceOrTab t with
      | ok t' =>
        rw [hsot] at h
        have hst : (spaceOrTabMinMax t 1 Option.none).state? = some t' := by
          rw [show spaceOrTabMinMax t 1 Option.none = RunResult.ok t' from hsot]; rfl
        obtain ⟨-, -, -, -, es₁, he₁, hne₁⟩ := sot_state hst
        obtain ⟨es₂, he₂, hb₂⟩ := ih _ _ _ h
        refine ⟨es₁ ++ es₂, ?_, balance_neutral hne₁ hb₂⟩
        rw [he₂, he₁, List.append_assoc]
      | nok t' =>
        rw [hsot] at h
        obtain ⟨es₂, he₂, hb₂⟩ := ih _ _ _ h
        exact ⟨es₂, he₂, hb₂⟩
      | out => rw [hsot] at h; simp at h
    | further_after =>
      simp only [ciRun] at h
      split_ifs at h with hcur
      obtain ⟨es₂, he₂, hb₂⟩ := ih _ _ _ h
      exact ⟨es₂, he₂, hb₂⟩

/-- When the leading-columns threshold is not met, the 4-column
`space_or_tab_min_max` fails, and restoring the checkpoint gives back exactly
the entry state. -/
theorem sot44_restore_of_not_leading (t : T)
    (h : specLeadingCols (t.input.drop t.pos) 0 = false) :
    ∃ v, spaceOrTabMinMax t TAB_SIZE (some TAB_SIZE) = .nok v ∧
      { v with pos := t.pos, events := t.events } = t := by
  have h42 : ¬ TAB_SIZE ≤ (sotLoop (t.input.drop t.pos) 0 (some TAB_SIZE)).2 := by
    show ¬ 4 ≤ (sotLoop (t.input.drop t.pos) 0 (some 4)).2
    rw [sotLoop44_spec]
    simp [h]
  unfold spaceOrTabMinMax
  simp only
  by_cases h1 : (sotLoop (t.input.drop t.pos) 0 (some TAB_SIZE)).1 = 0
  · rw [if_pos h1, if_neg (show ¬ TAB_SIZE = 0 by decide)]
    exact ⟨t, rfl, rfl⟩
  · rw [if_neg h1, if_neg h42]
    exact ⟨_, rfl, rfl⟩

theorem sot_nok_nil (t : T) (hd : t.input.drop t.pos = []) (min : Nat)
    (max : Option Nat) (hmin : min ≠ 0) : spaceOrTabMinMax t min max = .nok t := by
  unfold spaceOrTabMinMax
  simp [hd, sotLoop, hmin]

/-- On a line starting with space/tab, the unbounded `space_or_tab` succeeds
and consumes exactly the leading whitespace run. -/
theorem sot1_ok_of_ws (t : T) (b : Nat) (rest : List Nat)
    (hd : t.input.drop t.pos = b :: rest) (hb : b = 32 ∨ b = 9) :
    ∃ v, spaceOrTab t = .ok v ∧ v.pos = t.pos + bwsLen (t.input.drop t.pos) ∧
      v.input = t.input ∧ v.interrupt = t.interrupt ∧ v.lazy = t.lazy ∧
      v.code_indented = t.code_indented := by
  unfold spaceOrTab spaceOrTabMinMax
  have hc1 : (sotLoop (t.input.drop t.pos) 0 Option.none).1 =
      bwsLen (t.input.drop t.pos) := sotLoop_none_consumed _ _
  have hlen : 1 ≤ bwsLen (t.input.drop t.pos) := by
    rw [hd]
    unfold bwsLen
    rcases hb with hb | hb <;> simp [hb]
  have hne : (sotLoop (t.input.drop t.pos) 0 Option.none).1 ≠ 0 := by omega
  have hsz := sotLoop_size_le (t.input.drop t.pos) 0 Option.none
  simp only [hne, if_false]
  rw [if_pos (by omega)]
  exact ⟨_, rfl, by simp [hc1], rfl, rfl, rfl, rfl⟩

/-- If everything after the current position is a run of blank lines that are
each indented less than 4 columns, the continuation attempt `further_start`
fails (for every sufficiently large fuel). -/
theorem further_nok_of_thin : ∀ fuel t,
    t.lazy = false →
    specThinBlankRun (t.input.drop t.pos) 0 = true →
    4 * (t.input.length - t.pos) + 4 ≤ fuel →
    ∃ u, ciRun fuel CIState.further_start t = .nok u := by
  intro fuel
  induction fuel using Nat.strong_induction_on with
  | _ fuel ih =>
    intro t hlazy hthin hfuel
    obtain ⟨f, rfl⟩ : ∃ f, fuel = f + 1 := ⟨fuel - 1, by omega⟩
    rcases hd : t.input.drop t.pos with _ | ⟨b, rest⟩
    · -- end of input: the 4-column check fails, then the optional whitespace
      -- is empty, then `further_after` sees no line ending.
      have hcur : t.current = Option.none := by simp [T.current, hd]
      have hlead : specLeadingCols (t.input.drop t.pos) 0 = false := by
        rw [hd]
        simp [specLeadingCols]
      obtain ⟨v, hsot, hrest⟩ := sot44_restore_of_not_leading t hlead
      simp only [ciRun, hlazy, hcur]
      norm_num
      rw [hsot]
      show ∃ u, ciRun f CIState.further_begin
        { v with pos := t.pos, events := t.events } = .nok u
      rw [hrest]
      obtain ⟨f1, rfl⟩ : ∃ f1, f = f1 + 1 := ⟨f - 1, by omega⟩
      simp only [ciRun]
      rw [show spaceOrTab t = .nok t from sot_nok_nil t hd 1 Option.none (by omega)]
      show ∃ u, ciRun f1 CIState.further_after
        { t with pos := t.pos, events := t.events } = .nok u
      rw [show ({ t with pos := t.pos, events := t.events } : T) = t from rfl]
      obtain ⟨f2, rfl⟩ : ∃ f2, f1 = f2 + 1 := ⟨f1 - 1, by omega⟩
      simp only [ciRun, hcur]
      rw [if_neg (by simp)]
      exact ⟨t, rfl⟩
    · by_cases hb10 : b = 10
      · -- a line ending: consume it and recurse on the rest of the run.
        subst hb10
        have hcur : t.current = some 10 := by simp [T.current, hd]
        have hthin' : specThinBlankRun rest 0 = true := by
          rw [hd] at hthin
          unfold specThinBlankRun at hthin
          simpa using hthin
        have hpos : t.pos < t.input.length := by
          by_contra hge
          rw [List.drop_eq_nil_of_le (by omega)] at hd
          simp at hd
        have hdrop : t.input.drop (t.pos + 1) = rest := by
          have htl := List.tail_drop t.input t.pos
          rw [hd] at htl
          simpa using htl.symm
        obtain ⟨u, hu⟩ := ih f (by omega)
          (((t.enter .LineEnding).consume).exit .LineEnding)
          (by simp [hlazy]) (by simpa [hdrop]) (by simp; omega)
        refine ⟨u, ?_⟩
        simp only [ciRun, hlazy, hcur]
        norm_num
        exact hu
      · -- a thin blank line: the 4-column check fails, the whitespace run is
        -- consumed, and `further_after` either fails at end of input or loops
        -- at the next line ending.
        have hbws : b = 32 ∨ b = 9 := by
          rw [hd] at hthin
          unfold specThinBlankRun at hthin
          by_cases h32 : b = 32
          · exact Or.inl h32
          · by_cases h9 : b = 9
            · exact Or.inr h9
            · simp [hb10, h32, h9] at hthin
        have hcur : t.current = some b := by simp [T.current, hd]
        have hlead : specLeadingCols (t.input.drop t.pos) 0 = false :=
          thin_leading _ _ hthin
        obtain ⟨v, hsot, hrest⟩ := sot44_restore_of_not_leading t hlead
        obtain ⟨w, hsot1, hwpos, hwin, hwint, hwlazy, hwci⟩ :=
          sot1_ok_of_ws t b rest hd hbws
        have hn1 : 1 ≤ bwsLen (t.input.drop t.pos) := by
          rw [hd]
          unfold bwsLen
          rcases hbws with hb | hb <;> simp [hb]
        have hpos : t.pos < t.input.length := by
          by_contra hge
          rw [List.drop_eq_nil_of_le (by omega)] at hd
          simp at hd
        have hwdrop : w.input.drop w.pos =
            (t.input.drop t.pos).drop (bwsLen (t.input.drop t.pos)) := by
          rw [hwin, hwpos, List.drop_drop]
        have hne10 : ¬ t.current = some 10 := by
          rw [hcur]
          simp [hb10]
        simp only [ciRun, hlazy]
        norm_num
        rw [if_neg hne10, hsot]
        show ∃ u, ciRun f CIState.further_begin
          { v with pos := t.pos, events := t.events } = .nok u
        rw [hrest]
        obtain ⟨f1, rfl⟩ : ∃ f1, f = f1 + 1 := ⟨f - 1, by omega⟩
        simp only [ciRun]
        rw [hsot1]
        show ∃ u, ciRun f1 CIState.further_after w = .nok u
        obtain ⟨f2, rfl⟩ : ∃ f2, f1 = f2 + 1 := ⟨f1 - 1, by omega⟩
        simp only [ciRun]
        rcases thin_decomp (t.input.drop t.pos) 0 hthin with hnil | ⟨r, hr, hthinr⟩
        · have hwcur : ¬ w.current = some 10 := by
            simp [T.current, hwdrop, hnil]
          rw [if_neg hwcur]
          exact ⟨w, rfl⟩
        · have hwcur : w.current = some 10 := by
            simp [T.current, hwdrop, hr]
          rw [if_pos hwcur]
          apply ih f2 (by omega) w (hwlazy.trans hlazy)
          · rw [hwdrop, hr]
            unfold specThinBlankRun
            simpa using hthinr
          · rw [hwin, hwpos]
            omega

@[simp] theorem TT.enter_input_tt (t : TT) (k : Token) : (t.enter k).input = t.input := rfl
@[simp] theorem TT.enter_pos_tt (t : TT) (k : Token) : (t.enter k).pos = t.pos := rfl
@[simp] theorem TT.enter_events_tt (t : TT) (k : Token) :
    (t.enter k).events = t.events ++ [⟨.enter, k, t.pos⟩] := rfl
@[simp] theorem TT.exit_input_tt (t : TT) (k : Token) : (t.exit k).input = t.input := rfl
@[simp] theorem TT.exit_pos_tt (t : TT) (k : Token) : (t.exit k).pos = t.pos := rfl
@[simp] theorem TT.exit_events_tt (t : TT) (k : Token) :
    (t.exit k).events = t.events ++ [⟨.exit, k, t.pos⟩] := rfl
@[simp] theorem TT.consume_input_tt (t : TT) : t.consume.input = t.input := rfl
@[simp] theorem TT.consume_pos_tt (t : TT) : t.consume.pos = t.pos + 1 := rfl
@[simp] theorem TT.consume_events_tt (t : TT) : t.consume.events = t.events := rfl

/-- The whitespace partial of the title construct only appends a balanced
(possibly empty) `Whitespace` pair. -/
theorem ws_state {t u : TT} (h : (whitespace t).state? = some u) :
    u.input = t.input ∧
    ∃ es, u.events = t.events ++ es ∧ ∀ stk, reduce stk es = some stk := by
  unfold whitespace at h
  simp only at h
  split_ifs at h with h0
  · simp at h
    subst h
    exact ⟨rfl, [], by simp, fun stk => by simp [reduce]⟩
  · simp at h
    subst h
    exact ⟨rfl, _, rfl, fun stk => reduce_pair _ _ _ _⟩

/-- The token kinds open at entry to each title state. -/
def tiOpen : TiState → List Token
  | .start => []
  | .begin _ => [.DefinitionTitle]
  | .at_break _ => [.DefinitionTitleString, .DefinitionTitle]
  | .line_start _ => [.DefinitionTitleString, .DefinitionTitle]
  | .line_begin _ => [.DefinitionTitleString, .DefinitionTitle]
  | .title _ => [.ChunkString, .DefinitionTitleString, .DefinitionTitle]
  | .escape _ => [.ChunkString, .DefinitionTitleString, .DefinitionTitle]

/-- Balance invariant of the title machine: a state entered with `tiOpen s`
token kinds open appends, on success, an event segment that closes exactly
those kinds in stack order. -/
theorem ti_balance : ∀ fuel s t u, tiRun fuel s t = .ok u →
    ∃ es, u.events = t.events ++ es ∧ reduce (tiOpen s) es = some [] := by
  intro fuel
  induction fuel with
  | zero => intro s t u h; simp [tiRun] at h
  | succ f ih =>
    intro s t u h
    cases s with
    | start =>
      simp only [tiRun] at h
      cases hk : openerKind t.current with
      | none => rw [hk] at h; simp at h
      | some k =>
        rw [hk] at h
        obtain ⟨es₂, he₂, hb₂⟩ := ih _ _ _ h
        refine ⟨⟨.enter, .DefinitionTitle, t.pos⟩ :: ⟨.enter, .DefinitionTitleMarker, t.pos⟩ ::
          ⟨.exit, .DefinitionTitleMarker, t.pos + 1⟩ :: es₂, ?_, ?_⟩
        · rw [he₂]
          simp [TT.enter, TT.exit, TT.consume]
        · show reduce [] (⟨.enter, .DefinitionTitle, t.pos⟩ ::
            ⟨.enter, .DefinitionTitleMarker, t.pos⟩ ::
            ⟨.exit, .DefinitionTitleMarker, t.pos + 1⟩ :: es₂) = some []
          calc reduce [] (⟨.enter, .DefinitionTitle, t.pos⟩ ::
              ⟨.enter, .DefinitionTitleMarker, t.pos⟩ ::
              ⟨.exit, .DefinitionTitleMarker, t.pos + 1⟩ :: es₂)
              = reduce [Token.DefinitionTitle] es₂ := by simp [reduce]
            _ = some [] := hb₂
    | begin k =>
      simp only [tiRun] at h
      cases hc : t.current with
      | char c =>
        rw [hc] at h
        simp only at h
        split_ifs at h with hm
        · simp at h
          refine ⟨[⟨.enter, .DefinitionTitleMarker, t.pos⟩,
            ⟨.exit, .DefinitionTitleMarker, t.pos + 1⟩,
            ⟨.exit, .DefinitionTitle, t.pos + 1⟩], ?_, ?_⟩
          · rw [← h]
            simp [TT.enter, TT.exit, TT.consume]
          · simp [tiOpen, reduce]
        · obtain ⟨es₂, he₂, hb₂⟩ := ih _ _ _ h
          refine ⟨⟨.enter, .DefinitionTitleString, t.pos⟩ :: es₂, ?_, ?_⟩
          · rw [he₂]; simp [TT.enter]
          · show reduce [Token.DefinitionTitle]
              (⟨.enter, .DefinitionTitleString, t.pos⟩ :: es₂) = some []
            calc reduce [Token.DefinitionTitle]
                  (⟨.enter, .DefinitionTitleString, t.pos⟩ :: es₂)
                = reduce [Token.DefinitionTitleString, Token.DefinitionTitle] es₂ := by
                  simp [reduce]
              _ = some [] := hb₂
      | none =>
        rw [hc] at h
        obtain ⟨es₂, he₂, hb₂⟩ := ih _ _ _ h
        refine ⟨⟨.enter, .DefinitionTitleString, t.pos⟩ :: es₂, ?_, ?_⟩
        · rw [he₂]; simp [TT.enter]
        · show reduce [Token.DefinitionTitle]
            (⟨.enter, .DefinitionTitleString, t.pos⟩ :: es₂) = some []
          calc reduce [Token.DefinitionTitle]
                (⟨.enter, .DefinitionTitleString, t.pos⟩ :: es₂)
              = reduce [Token.DefinitionTitleString, Token.DefinitionTitle] es₂ := by
                simp [reduce]
            _ = some [] := hb₂
      | crlf =>
        rw [hc] at h
        obtain ⟨es₂, he₂, hb₂⟩ := ih _ _ _ h
        refine ⟨⟨.enter, .DefinitionTitleString, t.pos⟩ :: es₂, ?_, ?_⟩
        · rw [he₂]; simp [TT.enter]
        · show reduce [Token.DefinitionTitle]
            (⟨.enter, .DefinitionTitleString, t.pos⟩ :: es₂) = some []
          calc reduce [Token.DefinitionTitle]
                (⟨.enter, .DefinitionTitleString, t.pos⟩ :: es₂)
              = reduce [Token.DefinitionTitleString, Token.DefinitionTitle] es₂ := by
                simp [reduce]
            _ = some [] := hb₂
    | at_break k =>
      simp only [tiRun] at h
      cases hc : t.current with
      | char c =>
        rw [hc] at h
        simp only at h
        split_ifs at h with hm he
        · obtain ⟨es₂, he₂, hb₂⟩ := ih _ _ _ h
          refine ⟨⟨.exit, .DefinitionTitleString, t.pos⟩ :: es₂, ?_, ?_⟩
          · rw [he₂]; simp [TT.exit]
          · show reduce [Token.DefinitionTitleString, Token.DefinitionTitle]
              (⟨.exit, .DefinitionTitleString, t.pos⟩ :: es₂) = some []
            calc reduce [Token.DefinitionTitleString, Token.DefinitionTitle]
                  (⟨.exit, .DefinitionTitleString, t.pos⟩ :: es₂)
                = reduce [Token.DefinitionTitle] es₂ := by simp [reduce]
              _ = some [] := hb₂
        · obtain ⟨es₂, he₂, hb₂⟩ := ih _ _ _ h
          refine ⟨⟨.enter, .LineEnding, t.pos⟩ :: ⟨.exit, .LineEnding, t.pos + 1⟩ :: es₂,
            ?_, ?_⟩
          · rw [he₂]; simp [TT.enter, TT.exit, TT.consume]
          · show reduce [Token.DefinitionTitleString, Token.DefinitionTitle]
              (⟨.enter, .LineEnding, t.pos⟩ :: ⟨.exit, .LineEnding, t.pos + 1⟩ :: es₂) =
              some []
            calc reduce [Token.DefinitionTitleString, Token.DefinitionTitle]
                  (⟨.enter, .LineEnding, t.pos⟩ :: ⟨.exit, .LineEnding, t.pos + 1⟩ :: es₂)
                = reduce [Token.DefinitionTitleString, Token.DefinitionTitle] es₂ := by
                  simp [reduce]
              _ = some [] := hb₂
        · obtain ⟨es₂, he₂, hb₂⟩ := ih _ _ _ h
          refine ⟨⟨.enter, .ChunkString, t.pos⟩ :: es₂, ?_, ?_⟩
          · rw [he₂]; simp [TT.enter]
          · show reduce [Token.DefinitionTitleString, Token.DefinitionTitle]
              (⟨.enter, .ChunkString, t.pos⟩ :: es₂) = some []
            calc reduce [Token.DefinitionTitleString, Token.DefinitionTitle]
                  (⟨.enter, .ChunkString, t.pos⟩ :: es₂)
                = reduce [Token.ChunkString, Token.DefinitionTitleString,
                    Token.DefinitionTitle] es₂ := by simp [reduce]
              _ = some [] := hb₂
      | none => rw [hc] at h; simp at h
      | crlf =>
        rw [hc] at h
        obtain ⟨es₂, he₂, hb₂⟩ := ih _ _ _ h
        refine ⟨⟨.enter, .LineEnding, t.pos⟩ :: ⟨.exit, .LineEnding, t.pos + 1⟩ :: es₂,
          ?_, ?_⟩
        · rw [he₂]; simp [TT.enter, TT.exit, TT.consume]
        · show reduce [Token.DefinitionTitleString, Token.DefinitionTitle]
            (⟨.enter, .LineEnding, t.pos⟩ :: ⟨.exit, .LineEnding, t.pos + 1⟩ :: es₂) =
            some []
          calc reduce [Token.DefinitionTitleString, Token.DefinitionTitle]
                (⟨.enter, .LineEnding, t.pos⟩ :: ⟨.exit, .LineEnding, t.pos + 1⟩ :: es₂)
              = reduce [Token.DefinitionTitleString, Token.DefinitionTitle] es₂ := by
                simp [reduce]
            _ = some [] := hb₂
    | line_start k =>
      simp only [tiRun] at h
      cases hws : whitespace t with
      | ok t' =>
        rw [hws] at h
        obtain ⟨-, es₁, he₁, hne₁⟩ := ws_state (by rw [hws]; rfl)
        obtain ⟨es₂, he₂, hb₂⟩ := ih _ _ _ h
        refine ⟨es₁ ++ es₂, ?_, balance_neutral hne₁ hb₂⟩
        rw [he₂, he₁, List.append_assoc]
      | nok t' =>
        rw [hws] at h
        obtain ⟨es₂, he₂, hb₂⟩ := ih _ _ _ h
        exact ⟨es₂, he₂, hb₂⟩
      | out => rw [hws] at h; simp at h
    | line_begin k =>
      simp only [tiRun] at h
      cases hc : t.current with
      | char c =>
        rw [hc] at h
        simp only at h
        split_ifs at h with he
        obtain ⟨es₂, he₂, hb₂⟩ := ih _ _ _ h
        exact ⟨es₂, he₂, hb₂⟩
      | none =>
        rw [hc] at h
        obtain ⟨es₂, he₂, hb₂⟩ := ih _ _ _ h
        exact ⟨es₂, he₂, hb₂⟩
      | crlf => rw [hc] at h; simp at h
    | title k =>
      simp only [tiRun] at h
      cases hc : t.current with
      | char c =>
        rw [hc] at h
        simp only at h
        split_ifs at h with hm he hbs
        · obtain ⟨es₂, he₂, hb₂⟩ := ih _ _ _ h
          refine ⟨⟨.exit, .ChunkString, t.pos⟩ :: es₂, ?_, ?_⟩
          · rw [he₂]; simp [TT.exit]
          · show reduce [Token.ChunkString, Token.DefinitionTitleString,
                Token.DefinitionTitle] (⟨.exit, .ChunkString, t.pos⟩ :: es₂) = some []
            calc reduce [Token.ChunkString, Token.DefinitionTitleString,
                  Token.DefinitionTitle] (⟨.exit, .ChunkString, t.pos⟩ :: es₂)
                = reduce [Token.DefinitionTitleString, Token.DefinitionTitle] es₂ := by
                  simp [reduce]
              _ = some [] := hb₂
        · obtain ⟨es₂, he₂, hb₂⟩ := ih _ _ _ h
          refine ⟨⟨.exit, .ChunkString, t.pos⟩ :: es₂, ?_, ?_⟩
          · rw [he₂]; simp [TT.exit]
          · show reduce [Token.ChunkString, Token.DefinitionTitleString,
                Token.DefinitionTitle] (⟨.exit, .ChunkString, t.pos⟩ :: es₂) = some []
            calc reduce [Token.ChunkString, Token.DefinitionTitleString,
                  Token.DefinitionTitle] (⟨.exit, .ChunkString, t.pos⟩ :: es₂)
                = reduce [Token.DefinitionTitleString, Token.DefinitionTitle] es₂ := by
                  simp [reduce]
              _ = some [] := hb₂
        · obtain ⟨es₂, he₂, hb₂⟩ := ih _ _ _ h
          exact ⟨es₂, he₂, hb₂⟩
        · obtain ⟨es₂, he₂, hb₂⟩ := ih _ _ _ h
          exact ⟨es₂, he₂, hb₂⟩
      | none =>
        rw [hc] at h
        obtain ⟨es₂, he₂, hb₂⟩ := ih _ _ _ h
        refine ⟨⟨.exit, .ChunkString, t.pos⟩ :: es₂, ?_, ?_⟩
        · rw [he₂]; simp [TT.exit]
        · show reduce [Token.ChunkString, Token.DefinitionTitleString,
              Token.DefinitionTitle] (⟨.exit, .ChunkString, t.pos⟩ :: es₂) = some []
          calc reduce [Token.ChunkString, Token.DefinitionTitleString,
                Token.DefinitionTitle] (⟨.exit, .ChunkString, t.pos⟩ :: es₂)
              = reduce [Token.DefinitionTitleString, Token.DefinitionTitle] es₂ := by
                simp [reduce]
            _ = some [] := hb₂
      | crlf =>
        rw [hc] at h
        obtain ⟨es₂, he₂, hb₂⟩ := ih _ _ _ h
        refine ⟨⟨.exit, .ChunkString, t.pos⟩ :: es₂, ?_, ?_⟩
        · rw [he₂]; simp [TT.exit]
        · show reduce [Token.ChunkString, Token.DefinitionTitleString,
              Token.DefinitionTitle] (⟨.exit, .ChunkString, t.pos⟩ :: es₂) = some []
          calc reduce [Token.ChunkString, Token.DefinitionTitleString,
                Token.DefinitionTitle] (⟨.exit, .ChunkString, t.pos⟩ :: es₂)
              = reduce [Token.DefinitionTitleString, Token.DefinitionTitle] es₂ := by
                simp [reduce]
            _ = some [] := hb₂
    | escape k =>
      simp only [tiRun] at h
      split_ifs at h with hm
      · obtain ⟨es₂, he₂, hb₂⟩ := ih _ _ _ h
        exact ⟨es₂, he₂, hb₂⟩
      · obtain ⟨es₂, he₂, hb₂⟩ := ih _ _ _ h
        exact ⟨es₂, he₂, hb₂⟩

/-- When the leading-columns threshold is met, the 4-column
`space_or_tab_min_max` succeeds. -/
theorem sot44_ok_of_leading (t : T)
    (h : specLeadingCols (t.input.drop t.pos) 0 = true) :
    ∃ v, spaceOrTabMinMax t TAB_SIZE (some TAB_SIZE) = .ok v := by
  have h42 : TAB_SIZE ≤ (sotLoop (t.input.drop t.pos) 0 (some TAB_SIZE)).2 := by
    show 4 ≤ (sotLoop (t.input.drop t.pos) 0 (some 4)).2
    rw [sotLoop44_spec]
    exact h
  have hne : (sotLoop (t.input.drop t.pos) 0 (some TAB_SIZE)).1 ≠ 0 := by
    intro h0
    have := sotLoop_consumed_zero (t.input.drop t.pos) 0 (some TAB_SIZE) h0
    rw [this] at h42
    exact absurd h42 (by decide)
  unfold spaceOrTabMinMax
  simp only
  rw [if_neg hne, if_pos h42]
  exact ⟨_, rfl⟩

/-- The whitespace partial either succeeds or fails in place (it never runs
out of fuel), and on failure it returns the entry state unchanged. -/
theorem ws_nok_eq {t u : TT} (h : whitespace t = .nok u) : u = t := by
  unfold whitespace at h
  simp only at h
  split_ifs at h with h0
  simp at h
  exact h.symm

theorem ws_not_out (t : TT) : whitespace t ≠ .out := by
  unfold whitespace
  simp only
  split_ifs <;> simp

/-- `line_start` runs the checkpointed whitespace attempt and continues with
`line_begin` on the `afterWsState` in both cases. -/
theorem line_start_eq (fuel : Nat) (k : Kind) (t : TT) :
    Title.line_start (fuel + 1) k t = Title.line_begin fuel k (afterWsState t) := by
  unfold Title.line_start Title.line_begin afterWsState
  simp only [tiRun]
  cases hws : whitespace t with
  | ok t' => rfl
  | nok t' =>
    have := ws_nok_eq hws
    subst this
    rfl
  | out => exact absurd hws (ws_not_out t)

/-- C1: with the interrupt flag false and the construct enabled, the
code-indented construct proceeds past `start` (into `at_break`, after the
successful indentation check) exactly when the line begins with 4 columns of
space/tab indentation, tabs expanding to the next multiple of 4; with fewer
columns — e.g. only 3 — `start` returns `Nok`, regardless of what content
follows. -/
theorem claim_C1_indent_threshold (fuel : Nat) (t : T)
    (hI : t.interrupt = false) (hE : t.code_indented = true) :
    ((CodeIndented.start (fuel + 1) t).isNok = true ↔
      specLeadingCols (t.input.drop t.pos) 0 = false) ∧
    (specLeadingCols (t.input.drop t.pos) 0 = true →
      ∃ t2, spaceOrTabMinMax (t.enter .CodeIndented) TAB_SIZE (some TAB_SIZE) = .ok t2 ∧
        CodeIndented.start (fuel + 1) t = CodeIndented.at_break fuel t2) := by
  have hdrop : (t.enter .CodeIndented).input.drop (t.enter .CodeIndented).pos =
      t.input.drop t.pos := rfl
  unfold CodeIndented.start CodeIndented.at_break
  simp only [ciRun]
  rw [if_pos (show (!t.interrupt && t.code_indented) = true by rw [hI, hE]; rfl)]
  by_cases hs : specLeadingCols (t.input.drop t.pos) 0 = true
  · obtain ⟨v, hv⟩ := sot44_ok_of_leading (t.enter .CodeIndented) (by rw [hdrop]; exact hs)
    rw [hv]
    refine ⟨⟨?_, ?_⟩, ?_⟩
    · intro hnok
      exfalso
      have hnok' : (ciRun fuel CIState.at_break v).isNok = true := hnok
      cases hr : ciRun fuel CIState.at_break v with
      | ok w => rw [hr] at hnok'; simp [RunResult.isNok] at hnok'
      | nok w => exact (ci_not_nok fuel v w).1 hr
      | out => rw [hr] at hnok'; simp [RunResult.isNok] at hnok'
    · intro hf
      rw [hs] at hf
      exact absurd hf (by decide)
    · intro _
      exact ⟨v, rfl, rfl⟩
  · have hs' : specLeadingCols (t.input.drop t.pos) 0 = false := by
      cases hx : specLeadingCols (t.input.drop t.pos) 0
      · rfl
      · exact absurd hx hs
    obtain ⟨v, hv, -⟩ :=
      sot44_restore_of_not_leading (t.enter .CodeIndented) (by rw [hdrop]; exact hs')
    rw [hv]
    refine ⟨⟨fun _ => hs', fun _ => rfl⟩, fun hf => absurd hf hs⟩

def ciC1w : T := ⟨[32, 32, 32, 120], 0, [], false, false, true⟩

theorem claim_C1_indent_threshold_witness :
    (CodeIndented.start 6 ciC1w).isNok = true :=
  (claim_C1_indent_threshold 5 ciC1w rfl rfl).1.mpr (by decide)

/-- C5: with the interrupt flag set, or with the construct disabled, `start`
returns `Nok` immediately with the tokenizer state untouched (no code
consumed, no event appended). -/
theorem claim_C5_interrupt_or_disabled (fuel : Nat) (t : T)
    (h : t.interrupt = true ∨ t.code_indented = false) :
    CodeIndented.start (fuel + 1) t = .nok t := by
  unfold CodeIndented.start
  simp only [ciRun]
  rw [if_neg ?hc]
  case hc =>
    rcases h with h | h <;> simp [h]

def ciC5w : T := ⟨[32, 32, 32, 32, 97], 0, [], true, false, true⟩

theorem claim_C5_interrupt_or_disabled_witness :
    CodeIndented.start 6 ciC5w = .nok ciC5w :=
  claim_C5_interrupt_or_disabled 5 ciC5w (Or.inl rfl)

/-- C6: when the `lazy` flag is set, `further_start` returns `Nok` for every
current code — a lazy continuation line never extends an indented code
block, whatever its indentation. -/
theorem claim_C6_lazy_never_continues (fuel : Nat) (t : T) (h : t.lazy = true) :
    CodeIndented.further_start (fuel + 1) t = .nok t := by
  unfold CodeIndented.further_start
  simp only [ciRun]
  rw [if_pos h]

def ciC6w : T := ⟨[32, 32, 32, 32, 32, 32, 97], 0, [], false, true, true⟩

theorem claim_C6_lazy_never_continues_witness :
    CodeIndented.further_start 8 ciC6w = .nok ciC6w :=
  claim_C6_lazy_never_continues 7 ciC6w rfl

/-- C8: every successful run of the code-indented construct goes through
`after`, which unconditionally clears the `interrupt` flag before returning
`Ok`. -/
theorem claim_C8_clears_interrupt (fuel : Nat) (t t' : T)
    (h : CodeIndented.start fuel t = .ok t') : t'.interrupt = false := by
  unfold CodeIndented.start at h
  cases fuel with
  | zero => simp [ciRun] at h
  | succ f =>
    simp only [ciRun] at h
    split_ifs at h with hflag
    cases hsot : spaceOrTabMinMax (t.enter .CodeIndented) TAB_SIZE (some TAB_SIZE) with
    | ok t2 =>
      rw [hsot] at h
      exact (ci_ok_interrupt f t2 t').1 h
    | nok t2 => rw [hsot] at h; simp at h
    | out => rw [hsot] at h; simp at h

def ciC8w : T := ⟨[32, 32, 32, 32, 97], 0, [], false, false, true⟩

def ciC8tf : T := ⟨[32, 32, 32, 32, 97], 5,
  [⟨.enter, .CodeIndented, 0⟩, ⟨.enter, .SpaceOrTab, 0⟩, ⟨.exit, .SpaceOrTab, 4⟩,
   ⟨.enter, .CodeFlowChunk, 4⟩, ⟨.exit, .CodeFlowChunk, 5⟩, ⟨.exit, .CodeIndented, 5⟩],
  false, false, true⟩

theorem claim_C8_clears_interrupt_witness : ciC8tf.interrupt = false :=
  claim_C8_clears_interrupt 20 ciC8w ciC8tf (by decide)

/-- C10: with the interrupt flag false and the construct enabled but the
4-column requirement unmet, `start` returns `Nok` while `Enter(CodeIndented)`
is still on the event stack — the `go` chaining performs no rollback, which
is left entirely to the caller's checkpoint. -/
theorem claim_C10_no_rollback_on_nok (fuel : Nat) (t : T)
    (hI : t.interrupt = false) (hE : t.code_indented = true)
    (hInd : specLeadingCols (t.input.drop t.pos) 0 = false) :
    ∃ t2 es, CodeIndented.start (fuel + 1) t = .nok t2 ∧
      t2.events = t.events ++ ⟨.enter, .CodeIndented, t.pos⟩ :: es := by
  obtain ⟨v, hv, -⟩ := sot44_restore_of_not_leading (t.enter .CodeIndented) hInd
  obtain ⟨-, -, -, -, es₁, he₁, -⟩ := sot_state (by rw [hv]; rfl)
  refine ⟨v, es₁, ?_, ?_⟩
  · unfold CodeIndented.start
    simp only [ciRun]
    rw [if_pos (show (!t.interrupt && t.code_indented) = true by rw [hI, hE]; rfl), hv]
  · rw [he₁]
    simp [T.enter]

def ciC10w : T := ⟨[32, 32, 32, 120], 0, [], false, false, true⟩

theorem claim_C10_no_rollback_on_nok_witness :
    ∃ t2 es, CodeIndented.start 6 ciC10w = .nok t2 ∧
      t2.events = ciC10w.events ++ ⟨.enter, .CodeIndented, ciC10w.pos⟩ :: es :=
  claim_C10_no_rollback_on_nok 5 ciC10w rfl rfl (by decide)

/-- C2 (amended): a failing continuation attempt excludes everything it
consumed: when `at_break` stands at a line ending and the speculative
`further_start` attempt fails — in particular whenever the rest of the input
is a run of blank lines each indented less than 4 columns — the block is
closed exactly at that line ending, with the cursor and events rolled back to
the checkpoint, so those trailing blank lines never belong to the block.
(As the counterexample shows, a trailing whitespace-only line carrying at
least 4 columns of indentation is instead a successful continuation and is
kept inside the block's span, so the original unconditional claim fails.) -/
theorem claim_C2_amended_blank_exclusion (fuel : Nat) (t : T)
    (hL : t.lazy = false) (hC : t.current = some 10)
    (hThin : specThinBlankRun (t.input.drop (t.pos + 1)) 0 = true)
    (hFuel : 4 * (t.input.length - t.pos) + 4 ≤ fuel) :
    CodeIndented.at_break (fuel + 1) t =
      .ok { t with
        events := t.events ++ [⟨.exit, .CodeIndented, t.pos⟩],
        interrupt := false } := by
  have hd : t.input.drop t.pos = 10 :: t.input.drop (t.pos + 1) := by
    rcases hx : t.input.drop t.pos with _ | ⟨b, r⟩
    · rw [T.current, hx] at hC
      simp at hC
    · rw [T.current, hx] at hC
      simp at hC
      subst hC
      have htl := List.tail_drop t.input t.pos
      rw [hx] at htl
      simp at htl
      rw [htl]
  have hthin0 : specThinBlankRun (t.input.drop t.pos) 0 = true := by
    rw [hd]
    unfold specThinBlankRun
    simp [hThin]
  obtain ⟨u, hu⟩ := further_nok_of_thin fuel t hL hthin0 hFuel
  have hfi := ci_fields fuel CIState.further_start t u (by rw [hu]; rfl)
  unfold CodeIndented.at_break
  simp only [ciRun, hC, if_true]
  rw [hu]
  show ciRun fuel CIState.after { u with pos := t.pos, events := t.events } =
    .ok { t with
      events := t.events ++ [⟨.exit, .CodeIndented, t.pos⟩],
      interrupt := false }
  obtain ⟨f, rfl⟩ : ∃ f, fuel = f + 1 := ⟨fuel - 1, by omega⟩
  simp only [ciRun]
  congr 1
  exact T.ext' hfi.1 rfl rfl rfl hfi.2.1 hfi.2.2

def ciC2w : T := ⟨[32, 32, 32, 32, 97, 10, 32, 32, 10], 5, [], false, false, true⟩

theorem claim_C2_amended_blank_exclusion_witness :
    CodeIndented.at_break 25 ciC2w =
      .ok { ciC2w with
        events := ciC2w.events ++ [⟨.exit, .CodeIndented, ciC2w.pos⟩],
        interrupt := false } :=
  claim_C2_amended_blank_exclusion 24 ciC2w rfl (by decide) (by decide) (by decide)

def ciC2ce : T := ⟨[32, 32, 32, 32, 97, 10, 32, 32, 32, 32], 0, [], false, false, true⟩

def ciC2ceRes : T := ⟨[32, 32, 32, 32, 97, 10, 32, 32, 32, 32], 10,
  [⟨.enter, .CodeIndented, 0⟩, ⟨.enter, .SpaceOrTab, 0⟩, ⟨.exit, .SpaceOrTab, 4⟩,
   ⟨.enter, .CodeFlowChunk, 4⟩, ⟨.exit, .CodeFlowChunk, 5⟩,
   ⟨.enter, .LineEnding, 5⟩, ⟨.exit, .LineEnding, 6⟩,
   ⟨.enter, .SpaceOrTab, 6⟩, ⟨.exit, .SpaceOrTab, 10⟩,
   ⟨.exit, .CodeIndented, 10⟩],
  false, false, true⟩

/-- C2 counterexample: on the input "    a\n    " the final line consists
only of whitespace (a blank line), and no further line follows it; the claim
says such a trailing blank line is never included in the block's span.  Yet
the construct succeeds with the cursor at position 10 and closes
`CodeIndented` there — past the blank line, whose 4 columns were consumed as
a successful continuation — so the blank line lies inside the block's span. -/
theorem claim_C2_counterexample :
    CodeIndented.start 40 ciC2ce = .ok ciC2ceRes ∧
    ciC2ceRes.pos = 10 ∧
    ciC2ceRes.events.getLast? = some ⟨.exit, .CodeIndented, 10⟩ ∧
    ciC2ce.input.drop 6 = [32, 32, 32, 32] ∧
    (ciC2ce.input.drop 6).all (fun b => b = 32 || b = 9) = true := by
  refine ⟨by decide, by decide, by decide, by decide, by decide⟩

theorem TT.ext_tt {a b : TT} (h1 : a.input = b.input) (h2 : a.pos = b.pos)
    (h3 : a.events = b.events) : a = b := by
  cases a; cases b; simp_all

/-- `at_break` at a line ending emits the `LineEnding` token and hands over
to `line_start` (the marker and end-of-input arms do not apply). -/
theorem ti_at_break_eol_step (f : Nat) (k : Kind) (t : TT)
    (h : (TT.current t).isLineEnding = true) :
    Title.at_break (f + 1) k t = Title.line_start f k (consumeLineEnding t) := by
  cases hc : t.current with
  | none => rw [hc] at h; simp [Code.isLineEnding] at h
  | crlf =>
    unfold Title.at_break Title.line_start consumeLineEnding
    simp only [tiRun, hc]
  | char c =>
    rw [hc] at h
    simp only [Code.isLineEnding] at h
    have h1 : c = '\r' ∨ c = '\n' := by simpa using h
    have hm : ¬ c = kind_to_marker k := by
      rcases h1 with h1 | h1 <;> subst h1 <;> cases k <;> simp [kind_to_marker]
    unfold Title.at_break Title.line_start consumeLineEnding
    simp only [tiRun, hc]
    rw [if_neg hm, if_pos h1]

/-- `line_begin` at a line ending (a blank line) is a hard `Nok`. -/
theorem ti_line_begin_eol_nok (f : Nat) (k : Kind) (t : TT)
    (h : (TT.current t).isLineEnding = true) :
    Title.line_begin (f + 1) k t = .nok t := by
  cases hc : t.current with
  | none => rw [hc] at h; simp [Code.isLineEnding] at h
  | crlf =>
    unfold Title.line_begin
    simp only [tiRun, hc]
  | char c =>
    rw [hc] at h
    simp only [Code.isLineEnding] at h
    unfold Title.line_begin
    simp only [tiRun, hc]
    rw [if_pos (by simpa using h)]

/-- C3: whatever title content was already scanned (the tokenizer state `t`
is arbitrary), when the open title stands at a line ending whose following
line is blank — after the line ending and the optional whitespace the next
code is again a line ending — the construct returns `Nok`: the failure
propagates out of `at_break` with no enclosing attempt to catch it. -/
theorem claim_C3_blank_line_fails (fuel : Nat) (k : Kind) (t : TT)
    (h1 : (TT.current t).isLineEnding = true)
    (h2 : (TT.current (afterWsState (consumeLineEnding t))).isLineEnding = true) :
    Title.at_break (fuel + 3) k t = .nok (afterWsState (consumeLineEnding t)) :=
  calc Title.at_break (fuel + 3) k t
      = Title.line_start (fuel + 2) k (consumeLineEnding t) :=
        ti_at_break_eol_step (fuel + 2) k t h1
    _ = Title.line_begin (fuel + 1) k (afterWsState (consumeLineEnding t)) :=
        line_start_eq (fuel + 1) k (consumeLineEnding t)
    _ = .nok (afterWsState (consumeLineEnding t)) :=
        ti_line_begin_eol_nok fuel k _ h2

def tiC3w : TT := ⟨[.char '"', .char 'a', .char '\n', .char '\n', .char 'b', .char '"'], 2, []⟩

theorem claim_C3_blank_line_fails_witness :
    Title.at_break 3 Kind.Double tiC3w = .nok (afterWsState (consumeLineEnding tiC3w)) :=
  claim_C3_blank_line_fails 0 Kind.Double tiC3w (by decide) (by decide)

/-- C4: in title text, a backslash is consumed and the next code decides:
if it is the active closing marker, it is consumed too as literal content
(the title is not terminated, the machine stays in the title-text state);
otherwise the backslash stands alone and the held code is re-dispatched
through the title-text state unconsumed. -/
theorem claim_C4_escape (fuel : Nat) (k : Kind) (t : TT)
    (h : TT.current t = .char '\\') :
    Title.title (fuel + 2) k t =
      if TT.current t.consume = .char (kind_to_marker k)
      then Title.title fuel k (t.consume.consume)
      else Title.title fuel k t.consume := by
  have hstep : Title.title (fuel + 2) k t = Title.escape (fuel + 1) k t.consume := by
    unfold Title.title Title.escape
    simp only [tiRun, h]
    rw [if_neg ?m1, if_neg ?m2, if_pos trivial]
    case m1 => cases k <;> simp [kind_to_marker]
    case m2 => decide
  rw [hstep]
  unfold Title.escape Title.title
  simp only [tiRun]

def tiC4w : TT := ⟨[.char '"', .char 'a', .char '\\', .char '"', .char 'b', .char '"'], 2, []⟩

theorem claim_C4_escape_witness :
    Title.title 5 Kind.Double tiC4w =
      if TT.current tiC4w.consume = .char (kind_to_marker .Double)
      then Title.title 3 .Double (tiC4w.consume.consume)
      else Title.title 3 .Double tiC4w.consume :=
  claim_C4_escape 3 .Double tiC4w (by decide)

/-- C9: when the opening marker is immediately followed by the matching
closing marker, the title succeeds with an empty title: both markers are
consumed, the title token is closed, and no `DefinitionTitleString` token is
ever opened (the appended events are exactly the two marker pairs inside the
title pair). -/
theorem claim_C9_empty_title (fuel : Nat) (t : TT) (k : Kind)
    (h2 : openerKind (TT.current t) = some k)
    (h3 : TT.current t.consume = .char (kind_to_marker k)) :
    Title.start (fuel + 2) t = .ok { t with
      pos := t.pos + 2,
      events := t.events ++
        [⟨.enter, .DefinitionTitle, t.pos⟩, ⟨.enter, .DefinitionTitleMarker, t.pos⟩,
         ⟨.exit, .DefinitionTitleMarker, t.pos + 1⟩,
         ⟨.enter, .DefinitionTitleMarker, t.pos + 1⟩,
         ⟨.exit, .DefinitionTitleMarker, t.pos + 2⟩,
         ⟨.exit, .DefinitionTitle, t.pos + 2⟩] } := by
  have hc1 : TT.current ((((t.enter .DefinitionTitle).enter
      .DefinitionTitleMarker).consume).exit .DefinitionTitleMarker) =
      .char (kind_to_marker k) := h3
  unfold Title.start
  simp only [tiRun, h2, hc1]
  rw [if_pos trivial]
  congr 1
  apply TT.ext_tt
  · simp
  · simp
  · simp

def tiC9w : TT := ⟨[.char '(', .char ')'], 0, []⟩

theorem claim_C9_empty_title_witness :
    Title.start 4 tiC9w = .ok { tiC9w with
      pos := tiC9w.pos + 2,
      events := tiC9w.events ++
        [⟨.enter, .DefinitionTitle, tiC9w.pos⟩, ⟨.enter, .DefinitionTitleMarker, tiC9w.pos⟩,
         ⟨.exit, .DefinitionTitleMarker, tiC9w.pos + 1⟩,
         ⟨.enter, .DefinitionTitleMarker, tiC9w.pos + 1⟩,
         ⟨.exit, .DefinitionTitleMarker, tiC9w.pos + 2⟩,
         ⟨.exit, .DefinitionTitle, tiC9w.pos + 2⟩] } :=
  claim_C9_empty_title 2 tiC9w .Paren (by decide) (by decide)

/-- C7: every successful run of either construct appends a fully balanced
event segment: each `Enter` pushed since entry is matched, in stack order,
by an `Exit` of the same token kind before `Ok` is returned. -/
theorem claim_C7_balanced_events :
    (∀ fuel t t', CodeIndented.start fuel t = .ok t' →
      ∃ es, t'.events = t.events ++ es ∧ reduce [] es = some []) ∧
    (∀ fuel t t', Title.start fuel t = .ok t' →
      ∃ es, t'.events = t.events ++ es ∧ reduce [] es = some []) := by
  constructor
  · intro fuel t t' h
    exact ci_balance fuel CIState.start t t' h
  · intro fuel t t' h
    exact ti_balance fuel TiState.start t t' h

def ciC7w : T := ⟨[32, 32, 32, 32, 97], 0, [], false, false, true⟩

def ciC7tf : T := ⟨[32, 32, 32, 32, 97], 5,
  [⟨.enter, .CodeIndented, 0⟩, ⟨.enter, .SpaceOrTab, 0⟩, ⟨.exit, .SpaceOrTab, 4⟩,
   ⟨.enter, .CodeFlowChunk, 4⟩, ⟨.exit, .CodeFlowChunk, 5⟩, ⟨.exit, .CodeIndented, 5⟩],
  false, false, true⟩

def tiC7w : TT := ⟨[.char '"', .char 'a', .char '"'], 0, []⟩

def tiC7tf : TT := ⟨[.char '"', .char 'a', .char '"'], 3,
  [⟨.enter, .DefinitionTitle, 0⟩, ⟨.enter, .DefinitionTitleMarker, 0⟩,
   ⟨.exit, .DefinitionTitleMarker, 1⟩, ⟨.enter, .DefinitionTitleString, 1⟩,
   ⟨.enter, .ChunkString, 1⟩, ⟨.exit, .ChunkString, 2⟩,
   ⟨.exit, .DefinitionTitleString, 2⟩, ⟨.enter, .DefinitionTitleMarker, 2⟩,
   ⟨.exit, .DefinitionTitleMarker, 3⟩, ⟨.exit, .DefinitionTitle, 3⟩]⟩

theorem claim_C7_balanced_events_witness :
    (∃ es, ciC7tf.events = ciC7w.events ++ es ∧ reduce [] es = some []) ∧
    (∃ es, tiC7tf.events = tiC7w.events ++ es ∧ reduce [] es = some []) :=
  ⟨claim_C7_balanced_events.1 20 ciC7w ciC7tf (by decide),
   claim_C7_balanced_events.2 20 tiC7w tiC7tf (by decide)⟩
